import Mathlib

/-!
# Verification of the tamo task/memo tracker core

Shallow embedding of the ordering engine, referential-integrity manager and
structured-text ingestion pipeline of the tamo repository
(`internal/model`, `internal/cli`), together with theorems settling the
specification claims.

Strings are modelled as `List Char`; the float64 `order` field is modelled
as `ℚ` (the spec treats it as a real number; floating-point precision
exhaustion is declared a tolerated design boundary outside these claims).
-/

namespace Tamo

abbrev Str := List Char

/-- `model.Task` (internal/model): id, title, description, order, done,
memo_refs, timestamps. Timestamps are opaque here and modelled as `Nat`. -/
structure Task where
  ID : Str
  Title : Str
  Description : Str
  Order : ℚ
  Done : Bool
  MemoRefs : List Str
  CreatedAt : Nat
  UpdatedAt : Nat
deriving DecidableEq

/-- `model.Memo` (internal/model): id, optional title, content, timestamps. -/
structure Memo where
  ID : Str
  Title : Option Str
  Content : Str
  CreatedAt : Nat
  UpdatedAt : Nat
deriving DecidableEq

/-- `model.Store` (internal/model): version tag plus task and memo slices. -/
structure Store where
  Version : Nat
  Tasks : List Task
  Memos : List Memo
deriving DecidableEq

/-- `model.NewTask`: fresh task, order 0 (set later by the caller). -/
def NewTask (id title description : Str) (memoRefs : List Str) : Task :=
  { ID := id, Title := title, Description := description, Order := 0,
    Done := false, MemoRefs := memoRefs, CreatedAt := 0, UpdatedAt := 0 }

/-- `model.NewMemo`. -/
def NewMemo (id : Str) (title : Option Str) (content : Str) : Memo :=
  { ID := id, Title := title, Content := content, CreatedAt := 0, UpdatedAt := 0 }

/-- Accumulator loop of `Store.GetMaxTaskOrder`:
`for _, task := range s.Tasks { if task.Order > maxOrder { maxOrder = task.Order } }`. -/
def maxAcc : ℚ → List Task → ℚ
  | acc, [] => acc
  | acc, t :: ts => maxAcc (if t.Order > acc then t.Order else acc) ts

/-- `model.Store.GetMaxTaskOrder`: accumulator starts at `0.0`. -/
def Store.GetMaxTaskOrder (s : Store) : ℚ :=
  maxAcc 0 s.Tasks

/-- Accumulator loop of `Store.GetMinTaskOrder`. -/
def minAcc : ℚ → List Task → ℚ
  | acc, [] => acc
  | acc, t :: ts => minAcc (if t.Order < acc then t.Order else acc) ts

/-- `model.Store.GetMinTaskOrder`: `0.0` on an empty slice, else the
minimum starting from `Tasks[0].Order`. -/
def Store.GetMinTaskOrder (s : Store) : ℚ :=
  match s.Tasks with
  | [] => 0
  | t0 :: _ => minAcc t0.Order s.Tasks

/-- `model.Store.FindTaskByID`: first task with the given id. -/
def Store.FindTaskByID (s : Store) (id : Str) : Option Task :=
  s.Tasks.find? (fun t => t.ID = id)

/-- `model.Store.FindMemoByID`: first memo with the given id. -/
def Store.FindMemoByID (s : Store) (id : Str) : Option Memo :=
  s.Memos.find? (fun m => m.ID = id)

/-- The insertion mode of `executeAddTask` (`add`/`push` append,
`unshift` prepends). -/
inductive AddMode where
  | add
  | push
  | unshift
deriving DecidableEq

/-- Order assigned by `executeAddTask` (cli.go, `switch mode`):
`add`/`push` use `GetMaxTaskOrder() + 1.0`, `unshift` uses
`GetMinTaskOrder() - 1.0`. -/
def executeAddTaskOrder (s : Store) : AddMode → ℚ
  | .add => s.GetMaxTaskOrder + 1
  | .push => s.GetMaxTaskOrder + 1
  | .unshift => s.GetMinTaskOrder - 1

/- ## Elementary facts about the accumulator loops -/

theorem maxAcc_ge_init (acc : ℚ) (ts : List Task) : acc ≤ maxAcc acc ts := by
  induction ts generalizing acc with
  | nil => simp [maxAcc]
  | cons t ts ih =>
    simp only [maxAcc]
    split
    · exact le_trans (le_of_lt (by assumption)) (ih _)
    · exact ih _

theorem maxAcc_ge_mem (acc : ℚ) (ts : List Task) :
    ∀ t ∈ ts, t.Order ≤ maxAcc acc ts := by
  induction ts generalizing acc with
  | nil => intro t h; cases h
  | cons u ts ih =>
    intro t ht
    rcases List.mem_cons.mp ht with h | h
    · subst h
      refine le_trans ?_ (maxAcc_ge_init _ ts)
      by_cases hc : t.Order > acc
      · simp [hc]
      · simpa [hc] using le_of_not_lt hc
    · exact ih _ t h

theorem maxAcc_eq_of_top (acc : ℚ) (ts : List Task) (m : ℚ)
    (hacc : acc ≤ m) (hts : ∀ t ∈ ts, t.Order ≤ m)
    (hhit : acc = m ∨ ∃ t ∈ ts, t.Order = m) :
    maxAcc acc ts = m := by
  induction ts generalizing acc with
  | nil =>
    rcases hhit with h | ⟨t, ht, _⟩
    · simpa [maxAcc] using h
    · cases ht
  | cons u ts ih =>
    show maxAcc (if u.Order > acc then u.Order else acc) ts = m
    have hu : u.Order ≤ m := hts u (List.mem_cons_self u ts)
    have hacc' : (if u.Order > acc then u.Order else acc) ≤ m := by
      split
      · exact hu
      · exact hacc
    have hhit' : (if u.Order > acc then u.Order else acc) = m ∨
        ∃ t ∈ ts, t.Order = m := by
      rcases hhit with h | ⟨t, ht, htm⟩
      · left
        subst h
        have : ¬ u.Order > acc := not_lt.mpr hu
        simp [this]
      · rcases List.mem_cons.mp ht with h | h
        · subst h
          left
          by_cases hc : t.Order > acc
          · rw [if_pos hc]
            exact htm
          · have : acc = m := le_antisymm hacc (htm ▸ le_of_not_lt hc)
            rw [if_neg hc]
            exact this
        · exact Or.inr ⟨t, h, htm⟩
    exact ih _ hacc' (fun v hv => hts v (List.mem_cons_of_mem _ hv)) hhit'

theorem minAcc_le_init (acc : ℚ) (ts : List Task) : minAcc acc ts ≤ acc := by
  induction ts generalizing acc with
  | nil => simp [minAcc]
  | cons t ts ih =>
    simp only [minAcc]
    split
    · exact le_trans (ih _) (le_of_lt (by assumption))
    · exact ih _

theorem minAcc_le_mem (acc : ℚ) (ts : List Task) :
    ∀ t ∈ ts, minAcc acc ts ≤ t.Order := by
  induction ts generalizing acc with
  | nil => intro t h; cases h
  | cons u ts ih =>
    intro t ht
    rcases List.mem_cons.mp ht with h | h
    · subst h
      refine le_trans (minAcc_le_init _ ts) ?_
      by_cases hc : t.Order < acc
      · simp [hc]
      · simpa [hc] using le_of_not_lt hc
    · exact ih _ t h

/-- Selection loop of `executePop` (cli.go): running maximum starts at
`-1.0` and a task is selected only when its order is strictly greater. -/
def popGo : Option Task → ℚ → List Task → Option Task
  | cur, _, [] => cur
  | cur, maxOrder, t :: ts =>
    if t.Order > maxOrder then popGo (some t) t.Order ts
    else popGo cur maxOrder ts

/-- Last-task selection of `executePop`: `lastTask := nil; maxOrder := -1.0`. -/
def executePopSelect (s : Store) : Option Task :=
  popGo none (-1) s.Tasks

theorem popGo_eq_of_all_le (cur : Option Task) (m : ℚ) (ts : List Task)
    (h : ∀ t ∈ ts, t.Order ≤ m) : popGo cur m ts = cur := by
  induction ts with
  | nil => rfl
  | cons u ts ih =>
    have hu : ¬ u.Order > m := not_lt.mpr (h u (List.mem_cons_self u ts))
    simp only [popGo, hu, if_neg, ite_false]
    exact ih (fun t ht => h t (List.mem_cons_of_mem _ ht))

theorem popGo_some_start (ts : List Task) (c : Task) (m : ℚ) :
    ∃ r, popGo (some c) m ts = some r := by
  induction ts generalizing c m with
  | nil => exact ⟨c, rfl⟩
  | cons u ts ih =>
    simp only [popGo]
    split
    · exact ih u u.Order
    · exact ih c m

theorem popGo_some_of_exists (cur : Option Task) (m : ℚ) (ts : List Task)
    (h : ∃ t ∈ ts, m < t.Order) : ∃ r, popGo cur m ts = some r := by
  induction ts generalizing cur m with
  | nil => rcases h with ⟨t, ht, _⟩; cases ht
  | cons u ts ih =>
    simp only [popGo]
    by_cases hu : u.Order > m
    · rw [if_pos hu]
      exact popGo_some_start ts u u.Order
    · rw [if_neg hu]
      rcases h with ⟨t, ht, htm⟩
      rcases List.mem_cons.mp ht with rfl | hmem
      · exact absurd htm hu
      · exact ih cur m ⟨t, hmem, htm⟩

theorem popGo_spec (ts : List Task) (cur : Option Task) (m : ℚ) (r : Task)
    (hc : ∀ c, cur = some c → c.Order = m)
    (h : popGo cur m ts = some r) :
    (∀ u ∈ ts, u.Order ≤ r.Order) ∧ m ≤ r.Order ∧ (r ∈ ts ∨ cur = some r) := by
  induction ts generalizing cur m with
  | nil =>
    simp only [popGo] at h
    refine ⟨fun u hu => absurd hu (List.not_mem_nil u), ?_, Or.inr h⟩
    exact le_of_eq (hc r h).symm
  | cons u ts ih =>
    simp only [popGo] at h
    by_cases hu : u.Order > m
    · rw [if_pos hu] at h
      obtain ⟨hall, hle, hmem⟩ := ih (some u) u.Order
        (fun c hcu => by cases hcu; rfl) h
      refine ⟨?_, le_trans (le_of_lt hu) hle, ?_⟩
      · intro v hv
        rcases List.mem_cons.mp hv with rfl | hv'
        · exact hle
        · exact hall v hv'
      · rcases hmem with h' | h'
        · exact Or.inl (List.mem_cons_of_mem _ h')
        · cases h'
          exact Or.inl (List.mem_cons_self _ _)
    · rw [if_neg hu] at h
      obtain ⟨hall, hle, hmem⟩ := ih cur m hc h
      refine ⟨?_, hle, ?_⟩
      · intro v hv
        rcases List.mem_cons.mp hv with rfl | hv'
        · exact le_trans (le_of_not_lt hu) hle
        · exact hall v hv'
      · rcases hmem with h' | h'
        · exact Or.inl (List.mem_cons_of_mem _ h')
        · exact Or.inr h'

/- ## Claim theorems: C2, C9, C10 -/

/-- Example tasks/stores used in counterexamples and witnesses. -/
def mkTask (id : Str) (order : ℚ) : Task :=
  { NewTask id id [] [] with Order := order }

def c2Store : Store :=
  { Version := 1, Tasks := [mkTask "aaaa".toList (-5)], Memos := [] }

/-- C2 (counterexample): on a store whose only task has order `-5.0`,
`add`/`push` assigns order `1.0`, not `(maximum existing order) + 1.0 = -4.0`:
`GetMaxTaskOrder` starts its running maximum at `0.0`, so an all-negative
task set is treated as having maximum `0.0`. -/
theorem claim_C2_counterexample :
    (∀ t ∈ c2Store.Tasks, t.Order = -5) ∧
    executeAddTaskOrder c2Store .add = 1 ∧
    executeAddTaskOrder c2Store .add ≠ (-5) + 1 := by
  refine ⟨by decide, ?_, ?_⟩ <;>
    norm_num [executeAddTaskOrder, Store.GetMaxTaskOrder, c2Store, mkTask,
      NewTask, maxAcc]

/-- C2 (amended): `add`/`push` assigns order
`max(0, maximum existing order) + 1.0`; hence the claimed equality
`new order = maximum + 1.0` holds whenever the maximum existing order is
non-negative, the first task of an empty store receives order `1.0`, and an
all-non-positive task set also yields order `1.0`. -/
theorem claim_C2_amended (s : Store) :
    (s.Tasks = [] → executeAddTaskOrder s .add = 1) ∧
    (∀ t ∈ s.Tasks, (∀ u ∈ s.Tasks, u.Order ≤ t.Order) → 0 ≤ t.Order →
      executeAddTaskOrder s .add = t.Order + 1) ∧
    ((∀ t ∈ s.Tasks, t.Order ≤ 0) → executeAddTaskOrder s .add = 1) := by
  refine ⟨?_, ?_, ?_⟩
  · intro h
    simp [executeAddTaskOrder, Store.GetMaxTaskOrder, h, maxAcc]
  · intro t ht hmax h0
    have : maxAcc 0 s.Tasks = t.Order :=
      maxAcc_eq_of_top 0 s.Tasks t.Order h0 hmax (Or.inr ⟨t, ht, rfl⟩)
    simp [executeAddTaskOrder, Store.GetMaxTaskOrder, this]
  · intro h
    have : maxAcc 0 s.Tasks = 0 :=
      maxAcc_eq_of_top 0 s.Tasks 0 le_rfl h (Or.inl rfl)
    simp [executeAddTaskOrder, Store.GetMaxTaskOrder, this]

def c2wStore : Store :=
  { Version := 1, Tasks := [mkTask "bbbb".toList 2], Memos := [] }

/-- C2 witness: concrete instance of the amended claim's second clause. -/
theorem claim_C2_witness :
    executeAddTaskOrder c2wStore .add = 2 + 1 :=
  (claim_C2_amended c2wStore).2.1 (mkTask "bbbb".toList 2) (by decide)
    (by decide) (by decide)

/-- C9 (confirmed): on every non-empty task set, Append (`add`/`push`)
assigns an order strictly greater than every existing task's order, and
Prepend (`unshift`) assigns one strictly less than every existing task's
order. -/
theorem claim_C9 (s : Store) (hne : s.Tasks ≠ []) :
    (∀ t ∈ s.Tasks, t.Order < executeAddTaskOrder s .push) ∧
    (∀ t ∈ s.Tasks, executeAddTaskOrder s .unshift < t.Order) := by
  constructor
  · intro t ht
    have h1 : t.Order ≤ maxAcc 0 s.Tasks := maxAcc_ge_mem 0 s.Tasks t ht
    have : executeAddTaskOrder s .push = maxAcc 0 s.Tasks + 1 := rfl
    rw [this]
    linarith
  · intro t ht
    obtain ⟨t0, ts, hts⟩ : ∃ t0 ts, s.Tasks = t0 :: ts := by
      cases h : s.Tasks with
      | nil => exact absurd h hne
      | cons a l => exact ⟨a, l, rfl⟩
    have h1 : minAcc t0.Order s.Tasks ≤ t.Order := minAcc_le_mem _ s.Tasks t ht
    have h2 : executeAddTaskOrder s .unshift = minAcc t0.Order s.Tasks - 1 := by
      simp only [executeAddTaskOrder, Store.GetMinTaskOrder, hts]
    rw [h2]
    rw [hts] at h1 ⊢
    linarith [minAcc_le_mem t0.Order (t0 :: ts) t (hts ▸ ht)]

def c9Store : Store :=
  { Version := 1, Tasks := [mkTask "cc01".toList 4, mkTask "cc02".toList (-7)],
    Memos := [] }

/-- C9 witness: concrete instance on a two-task store. -/
theorem claim_C9_witness :
    (∀ t ∈ c9Store.Tasks, t.Order < executeAddTaskOrder c9Store .push) ∧
    (∀ t ∈ c9Store.Tasks, executeAddTaskOrder c9Store .unshift < t.Order) :=
  claim_C9 c9Store (by decide)

/-- C10 (confirmed): `executePop`'s selection loop starts its running
maximum at `-1.0`.  If some task has order strictly greater than `-1.0`, a
task of maximal order is selected; but on a non-empty store in which every
task's order is at most `-1.0`, no task is selected (the command then fails
with "no tasks found" despite tasks existing). -/
theorem claim_C10 (s : Store) :
    ((∃ t ∈ s.Tasks, -1 < t.Order) →
      ∃ r, executePopSelect s = some r ∧ r ∈ s.Tasks ∧
        ∀ u ∈ s.Tasks, u.Order ≤ r.Order) ∧
    (s.Tasks ≠ [] → (∀ t ∈ s.Tasks, t.Order ≤ -1) →
      executePopSelect s = none) := by
  constructor
  · intro h
    obtain ⟨r, hr⟩ := popGo_some_of_exists none (-1) s.Tasks h
    obtain ⟨hall, _, hmem⟩ := popGo_spec s.Tasks none (-1) r
      (fun c hc => by cases hc) hr
    rcases hmem with hm | hm
    · exact ⟨r, hr, hm, hall⟩
    · cases hm
  · intro _ h
    exact popGo_eq_of_all_le none (-1) s.Tasks h

def c10aStore : Store :=
  { Version := 1, Tasks := [mkTask "da01".toList 2, mkTask "da02".toList 3],
    Memos := [] }

def c10bStore : Store :=
  { Version := 1, Tasks := [mkTask "db01".toList (-2)], Memos := [] }

/-- C10 witness: both branches at concrete stores. -/
theorem claim_C10_witness :
    (∃ r, executePopSelect c10aStore = some r ∧ r ∈ c10aStore.Tasks ∧
      ∀ u ∈ c10aStore.Tasks, u.Order ≤ r.Order) ∧
    executePopSelect c10bStore = none :=
  ⟨(claim_C10 c10aStore).1 ⟨mkTask "da01".toList 2, by decide, by decide⟩,
   (claim_C10 c10bStore).2 (by decide) (by decide)⟩

/- ## Referential integrity: memo removal (cli.go) -/

/-- `containsString` (cli.go): linear scan of a string slice. -/
def containsString : List Str → Str → Bool
  | [], _ => false
  | item :: rest, s => if item = s then true else containsString rest s

/-- `findTasksReferencingMemo` (cli.go): all tasks, in store order, whose
`MemoRefs` contain the memo id. -/
def findTasksReferencingMemo (s : Store) (memoID : Str) : List Task :=
  s.Tasks.filter (fun t => containsString t.MemoRefs memoID)

/-- First loop of `removeMemo` (cli.go): remove the first memo whose id
matches, then `break`. -/
def removeFirstMemo (id : Str) : List Memo → List Memo
  | [] => []
  | m :: ms => if m.ID = id then ms else m :: removeFirstMemo id ms

/-- Inner loop of `removeMemo`'s second pass: remove the first matching
reference from a task's `MemoRefs`, then `break`. -/
def removeFirstRef (id : Str) : List Str → List Str
  | [] => []
  | r :: rs => if r = id then rs else r :: removeFirstRef id rs

/-- `removeMemo` (cli.go): drop the first memo with the given id, and for
every task drop the first occurrence of the id in its `MemoRefs`. -/
def removeMemo (s : Store) (id : Str) : Store :=
  { s with
    Memos := removeFirstMemo id s.Memos,
    Tasks := s.Tasks.map
      (fun t => { t with MemoRefs := removeFirstRef id t.MemoRefs }) }

/-- Memo branch of `executeRemove` (cli.go): when the memo is referenced
and no force flag is given, the command aborts reporting the referencing
tasks and the store is left untouched; otherwise `removeMemo` runs.
Returns the resulting store and the reported task list, if any. -/
def executeRemoveMemo (s : Store) (memo : Memo) (force : Bool) :
    Store × Option (List Task) :=
  let referencingTasks := findTasksReferencingMemo s memo.ID
  if 0 < referencingTasks.length ∧ force = false then
    (s, some referencingTasks)
  else
    (removeMemo s memo.ID, none)

theorem removeFirstMemo_id_ne (id : Str) (ms : List Memo)
    (hnodup : (ms.map Memo.ID).Nodup) :
    ∀ m' ∈ removeFirstMemo id ms, m'.ID ≠ id := by
  induction ms with
  | nil => intro m' h; cases h
  | cons m ms ih =>
    simp only [List.map_cons, List.nodup_cons] at hnodup
    simp only [removeFirstMemo]
    split
    · intro m' hm' heq
      have hmid : m.ID = id := by assumption
      have : m.ID ∈ ms.map Memo.ID := by
        rw [hmid, ← heq]
        exact List.mem_map_of_mem Memo.ID hm'
      exact hnodup.1 this
    · intro m' hm'
      rcases List.mem_cons.mp hm' with rfl | h
      · assumption
      · exact ih hnodup.2 m' h

theorem removeFirstRef_not_mem (id : Str) (rs : List Str)
    (hcount : rs.count id ≤ 1) : id ∉ removeFirstRef id rs := by
  induction rs with
  | nil => simp [removeFirstRef]
  | cons r rs ih =>
    simp only [removeFirstRef]
    by_cases h : r = id
    · rw [if_pos h]
      subst h
      rw [List.count_cons_self] at hcount
      exact List.count_eq_zero.mp (by omega)
    · rw [if_neg h]
      intro hmem
      rcases List.mem_cons.mp hmem with rfl | hmem'
      · exact h rfl
      · have : rs.count id ≤ 1 := by
          rw [List.count_cons_of_ne (fun he => h he.symm)] at hcount
          exact hcount
        exact ih this hmem'

/- ## Claim theorems: C1, C5 -/

def c1Memo : Memo := NewMemo "mm01".toList none []

def c1Task : Task :=
  NewTask "tt01".toList "t".toList [] ["mm01".toList, "mm01".toList]

def c1Store : Store := { Version := 1, Tasks := [c1Task], Memos := [c1Memo] }

/-- C1 (counterexample): a task holding the memo id twice keeps one
dangling reference after forced removal — `removeMemo`'s inner loop
`break`s after deleting the first occurrence. -/
theorem claim_C1_counterexample :
    (executeRemoveMemo c1Store c1Memo true).2 = none ∧
    (executeRemoveMemo c1Store c1Memo true).1.Tasks.any
      (fun t => containsString t.MemoRefs c1Memo.ID) = true := by
  decide

/-- C1 (amended): forced deletion removes the memo from the store and
removes the *first* occurrence of its id from every task's `memo_refs`;
hence when no task holds the id more than once (and memo ids are unique),
the deleted id is absent from every task's `memo_refs` afterwards. -/
theorem claim_C1_amended (s : Store) (memo : Memo)
    (hnodup : (s.Memos.map Memo.ID).Nodup)
    (hcount : ∀ t ∈ s.Tasks, t.MemoRefs.count memo.ID ≤ 1) :
    (∀ m' ∈ (executeRemoveMemo s memo true).1.Memos, m'.ID ≠ memo.ID) ∧
    (∀ t' ∈ (executeRemoveMemo s memo true).1.Tasks,
      memo.ID ∉ t'.MemoRefs) ∧
    (executeRemoveMemo s memo true).2 = none := by
  have hbranch : executeRemoveMemo s memo true = (removeMemo s memo.ID, none) := by
    simp [executeRemoveMemo]
  rw [hbranch]
  refine ⟨?_, ?_, rfl⟩
  · exact removeFirstMemo_id_ne memo.ID s.Memos hnodup
  · intro t' ht'
    simp only [removeMemo, List.mem_map] at ht'
    obtain ⟨t, ht, rfl⟩ := ht'
    exact removeFirstRef_not_mem memo.ID t.MemoRefs (hcount t ht)

def c1wMemo : Memo := NewMemo "mw01".toList none []

def c1wStore : Store :=
  { Version := 1,
    Tasks := [NewTask "tw01".toList "t".toList [] ["mw01".toList],
              NewTask "tw02".toList "u".toList [] []],
    Memos := [c1wMemo] }

/-- C1 witness: amended claim at a concrete store with a single reference. -/
theorem claim_C1_witness :
    (∀ m' ∈ (executeRemoveMemo c1wStore c1wMemo true).1.Memos,
      m'.ID ≠ c1wMemo.ID) ∧
    (∀ t' ∈ (executeRemoveMemo c1wStore c1wMemo true).1.Tasks,
      c1wMemo.ID ∉ t'.MemoRefs) ∧
    (executeRemoveMemo c1wStore c1wMemo true).2 = none :=
  claim_C1_amended c1wStore c1wMemo (by decide) (by decide)

/-- C5 (confirmed): unforced removal of a memo referenced by at least one
task aborts, reports exactly the referencing tasks (in store order), and
leaves the store unchanged. -/
theorem claim_C5 (s : Store) (memo : Memo) (_hm : memo ∈ s.Memos)
    (href : ∃ t ∈ s.Tasks, containsString t.MemoRefs memo.ID = true) :
    executeRemoveMemo s memo false =
      (s, some (findTasksReferencingMemo s memo.ID)) ∧
    findTasksReferencingMemo s memo.ID ≠ [] ∧
    (∀ t, t ∈ findTasksReferencingMemo s memo.ID ↔
      t ∈ s.Tasks ∧ containsString t.MemoRefs memo.ID = true) := by
  obtain ⟨t, ht, htc⟩ := href
  have hmem : t ∈ findTasksReferencingMemo s memo.ID :=
    List.mem_filter.mpr ⟨ht, htc⟩
  have hne : findTasksReferencingMemo s memo.ID ≠ [] := by
    intro h
    rw [h] at hmem
    exact List.not_mem_nil t hmem
  refine ⟨?_, hne, fun u => List.mem_filter⟩
  have hlen : 0 < (findTasksReferencingMemo s memo.ID).length :=
    List.length_pos.mpr hne
  simp [executeRemoveMemo, hlen]

def c5Memo : Memo := NewMemo "mf01".toList none []

def c5Store : Store :=
  { Version := 1,
    Tasks := [NewTask "tf01".toList "t".toList [] ["mf01".toList],
              NewTask "tf02".toList "u".toList [] []],
    Memos := [c5Memo] }

/-- C5 witness: concrete unforced blocked removal. -/
theorem claim_C5_witness :
    executeRemoveMemo c5Store c5Memo false =
      (c5Store, some (findTasksReferencingMemo c5Store c5Memo.ID)) ∧
    findTasksReferencingMemo c5Store c5Memo.ID ≠ [] ∧
    (∀ t, t ∈ findTasksReferencingMemo c5Store c5Memo.ID ↔
      t ∈ c5Store.Tasks ∧ containsString t.MemoRefs c5Memo.ID = true) :=
  claim_C5 c5Store c5Memo (by decide)
    ⟨NewTask "tf01".toList "t".toList [] ["mf01".toList], by decide, by decide⟩

/- ## `sortTasksByOrder` (cli.go): the exchange sort -/

/-- One comparison/swap of `sortTasksByOrder`'s double loop:
`if tasks[i].Order > tasks[j].Order { tasks[i], tasks[j] = tasks[j], tasks[i] }`. -/
def exchangeStep (ts : List Task) (i j : Nat) : List Task :=
  match ts[i]?, ts[j]? with
  | some a, some b => if a.Order > b.Order then (ts.set i b).set j a else ts
  | _, _ => ts

/-- Inner loop `for j := i + 1; j < len(tasks); j++`, running `c` more
iterations starting at index `j`. -/
def innerLoop : List Task → Nat → Nat → Nat → List Task
  | ts, _, _, 0 => ts
  | ts, i, j, c + 1 => innerLoop (exchangeStep ts i j) i (j + 1) c

/-- Outer loop `for i := 0; i < len(tasks); i++`, running `c` more
iterations starting at index `i`. -/
def outerLoop : List Task → Nat → Nat → List Task
  | ts, _, 0 => ts
  | ts, i, c + 1 =>
    outerLoop (innerLoop ts i (i + 1) (ts.length - (i + 1))) (i + 1) c

/-- `sortTasksByOrder` (cli.go): in-place exchange sort by `Order`. -/
def sortTasksByOrder (ts : List Task) : List Task :=
  outerLoop ts 0 ts.length

/-- Order of the task at index `k` (`0` out of range); the invariants of
the sorting loops are phrased with it. -/
def ordAt (ts : List Task) (k : Nat) : ℚ :=
  ((ts[k]?).map Task.Order).getD 0

theorem exchangeStep_length (ts : List Task) (i j : Nat) :
    (exchangeStep ts i j).length = ts.length := by
  unfold exchangeStep
  split
  · split <;> simp
  · rfl

theorem cons_set_perm (l : List Task) (k : Nat) (a b : Task)
    (h : l[k]? = some b) : List.Perm (b :: l.set k a) (a :: l) := by
  induction l generalizing k with
  | nil => simp at h
  | cons c l ih =>
    cases k with
    | zero =>
      have hcb : c = b := by simpa using h
      subst hcb
      exact List.Perm.swap a c l
    | succ k =>
      simp only [List.getElem?_cons_succ] at h
      have ih' := ih k h
      exact (List.Perm.swap c b _).trans
        ((List.Perm.cons c ih').trans (List.Perm.swap a c l))

theorem set_set_perm (ts : List Task) (i j : Nat) (a b : Task)
    (hij : i < j) (ha : ts[i]? = some a) (hb : ts[j]? = some b) :
    List.Perm ((ts.set i b).set j a) ts := by
  induction ts generalizing i j with
  | nil => simp at ha
  | cons c l ih =>
    cases i with
    | zero =>
      have hca : c = a := by simpa using ha
      subst hca
      obtain ⟨k, rfl⟩ : ∃ k, j = k + 1 := ⟨j - 1, by omega⟩
      simp only [List.getElem?_cons_succ] at hb
      exact cons_set_perm l k c b hb
    | succ i =>
      obtain ⟨k, rfl⟩ : ∃ k, j = k + 1 := ⟨j - 1, by omega⟩
      simp only [List.getElem?_cons_succ] at ha hb
      exact List.Perm.cons c (ih i k (by omega) ha hb)

theorem exchangeStep_perm (ts : List Task) (i j : Nat) :
    List.Perm (exchangeStep ts i j) ts := by
  unfold exchangeStep
  split
  · rename_i a b ha hb
    split
    · rename_i hab
      rcases lt_trichotomy i j with h | h | h
      · exact set_set_perm ts i j a b h ha hb
      · subst h
        rw [ha] at hb
        cases hb
        exact absurd hab (lt_irrefl _)
      · rw [List.set_comm _ _ _ (Nat.ne_of_gt h)]
        exact set_set_perm ts j i b a h hb ha
    · exact List.Perm.refl ts
  · exact List.Perm.refl ts

theorem innerLoop_perm (c : Nat) :
    ∀ (ts : List Task) (i j : Nat), List.Perm (innerLoop ts i j c) ts := by
  induction c with
  | zero => intro ts i j; exact List.Perm.refl ts
  | succ c ih =>
    intro ts i j
    exact (ih (exchangeStep ts i j) i (j + 1)).trans (exchangeStep_perm ts i j)

theorem outerLoop_perm (c : Nat) :
    ∀ (ts : List Task) (i : Nat), List.Perm (outerLoop ts i c) ts := by
  induction c with
  | zero => intro ts i; exact List.Perm.refl ts
  | succ c ih =>
    intro ts i
    exact (ih _ (i + 1)).trans (innerLoop_perm _ ts i (i + 1))

/-- `sortTasksByOrder` permutes its input. -/
theorem sortTasksByOrder_perm (ts : List Task) :
    List.Perm (sortTasksByOrder ts) ts :=
  outerLoop_perm ts.length ts 0

theorem take_set_of_le (l : List Task) (n i : Nat) (a : Task) (h : n ≤ i) :
    (l.set i a).take n = l.take n := by
  apply List.ext_getElem?
  intro k
  by_cases hk : k < n
  · rw [List.getElem?_take_of_lt hk, List.getElem?_take_of_lt hk,
      List.getElem?_set_ne (by omega)]
  · rw [List.getElem?_eq_none, List.getElem?_eq_none] <;>
      simp [List.length_take] <;> omega

theorem set_drop (l : List Task) (n m : Nat) (a : Task) (h : n ≤ m) :
    (l.set m a).drop n = (l.drop n).set (m - n) a := by
  induction l generalizing n m with
  | nil => simp
  | cons c l ih =>
    cases n with
    | zero => simp
    | succ n =>
      obtain ⟨m', rfl⟩ : ∃ m', m = m' + 1 := ⟨m - 1, by omega⟩
      show ((c :: l).set (m' + 1) a).drop (n + 1) = (l.drop n).set (m' + 1 - (n + 1)) a
      show (l.set m' a).drop n = (l.drop n).set (m' + 1 - (n + 1)) a
      rw [ih n m' (by omega)]
      congr 1
      omega

theorem setset_getElem (ts : List Task) (i j : Nat) (a b : Task)
    (hi : i < ts.length) (hj : j < ts.length) (k : Nat) (hij : i ≠ j) :
    ((ts.set i b).set j a)[k]? =
      if k = j then some a else if k = i then some b else ts[k]? := by
  by_cases h1 : k = j
  · subst h1
    rw [List.getElem?_set_self (by simpa using hj)]
    simp
  · rw [List.getElem?_set_ne (fun h => h1 h.symm)]
    by_cases h2 : k = i
    · subst h2
      rw [List.getElem?_set_self hi]
      simp [h1]
    · rw [List.getElem?_set_ne (fun h => h2 h.symm)]
      simp [h1, h2]

theorem exchangeStep_take (ts : List Task) (i j : Nat) (hij : i ≤ j) :
    (exchangeStep ts i j).take i = ts.take i := by
  unfold exchangeStep
  split
  · split
    · rw [take_set_of_le _ i j _ hij, take_set_of_le _ i i _ le_rfl]
    · rfl
  · rfl

theorem exchangeStep_drop_perm (ts : List Task) (i j : Nat) (hij : i < j) :
    List.Perm ((exchangeStep ts i j).drop i) (ts.drop i) := by
  unfold exchangeStep
  split
  · rename_i a b ha hb
    split
    · rw [set_drop _ i j _ (le_of_lt hij), set_drop _ i i _ le_rfl,
        Nat.sub_self]
      refine set_set_perm (ts.drop i) 0 (j - i) a b (by omega) ?_ ?_
      · rw [List.getElem?_drop]
        simpa using ha
      · rw [List.getElem?_drop]
        have : i + (j - i) = j := by omega
        rw [this]
        exact hb
    · exact List.Perm.refl _
  · exact List.Perm.refl _

theorem exchangeStep_cases (ts : List Task) (i j : Nat)
    (hi : i < ts.length) (hj : j < ts.length) :
    (∃ a b, ts[i]? = some a ∧ ts[j]? = some b ∧ b.Order < a.Order ∧
      exchangeStep ts i j = (ts.set i b).set j a) ∨
    (exchangeStep ts i j = ts ∧ ordAt ts i ≤ ordAt ts j) := by
  have ha := List.getElem?_eq_getElem hi
  have hb := List.getElem?_eq_getElem hj
  by_cases hab : ts[j].Order < ts[i].Order
  · left
    refine ⟨ts[i], ts[j], ha, hb, hab, ?_⟩
    simp only [exchangeStep, ha, hb]
    rw [if_pos hab]
  · right
    constructor
    · simp only [exchangeStep, ha, hb]
      rw [if_neg hab]
    · simp only [ordAt, ha, hb, Option.map_some, Option.getD_some]
      exact le_of_not_lt hab

theorem getElem_some_lt {α : Type} {l : List α} {n : Nat} {a : α}
    (h : l[n]? = some a) : n < l.length := by
  by_contra hc
  rw [List.getElem?_eq_none (by omega)] at h
  cases h

/-- Invariant of the inner loop: it leaves the prefix before `i` alone,
permutes the suffix from `i`, and ends with the minimum of that suffix
sitting at index `i`. -/
theorem innerLoop_spec (c : Nat) :
    ∀ (ts : List Task) (i j : Nat), i < j → j + c = ts.length →
    (∀ k, i ≤ k → k < j → ordAt ts i ≤ ordAt ts k) →
    (innerLoop ts i j c).take i = ts.take i ∧
    List.Perm ((innerLoop ts i j c).drop i) (ts.drop i) ∧
    (∀ k, i ≤ k → k < ts.length →
      ordAt (innerLoop ts i j c) i ≤ ordAt (innerLoop ts i j c) k) := by
  induction c with
  | zero =>
    intro ts i j hij hlen hmin
    exact ⟨rfl, List.Perm.refl _, fun k h1 h2 => hmin k h1 (by omega)⟩
  | succ c ih =>
    intro ts i j hij hlen hmin
    have hjlen : j < ts.length := by omega
    have hilen : i < ts.length := by omega
    have hlen₁ : (exchangeStep ts i j).length = ts.length :=
      exchangeStep_length ts i j
    have htake₁ : (exchangeStep ts i j).take i = ts.take i :=
      exchangeStep_take ts i j (le_of_lt hij)
    have hdrop₁ : List.Perm ((exchangeStep ts i j).drop i) (ts.drop i) :=
      exchangeStep_drop_perm ts i j hij
    have hmin₁ : ∀ k, i ≤ k → k < j + 1 →
        ordAt (exchangeStep ts i j) i ≤ ordAt (exchangeStep ts i j) k := by
      rcases exchangeStep_cases ts i j hilen hjlen with
        ⟨a, b, ha, hb, hba, heq⟩ | ⟨heq, hle⟩
      · intro k h1 h2
        have hne : i ≠ j := by omega
        have hgi : (exchangeStep ts i j)[i]? = some b := by
          rw [heq, setset_getElem ts i j a b hilen hjlen i hne]
          simp [hne]
        by_cases hk : k = j
        · rw [hk]
          have hgj : (exchangeStep ts i j)[j]? = some a := by
            rw [heq, setset_getElem ts i j a b hilen hjlen j hne]
            simp
          simp only [ordAt, hgi, hgj, Option.map_some, Option.getD_some]
          exact le_of_lt hba
        · by_cases hki : k = i
          · subst hki
            exact le_rfl
          · have hgk : (exchangeStep ts i j)[k]? = ts[k]? := by
              rw [heq, setset_getElem ts i j a b hilen hjlen k hne]
              simp [hk, hki]
            have h3 : ordAt ts i ≤ ordAt ts k := hmin k h1 (by omega)
            have h4 : ordAt ts i = a.Order := by simp [ordAt, ha]
            have h5 : ordAt (exchangeStep ts i j) i = b.Order := by
              simp [ordAt, hgi]
            have h6 : ordAt (exchangeStep ts i j) k = ordAt ts k := by
              simp [ordAt, hgk]
            rw [h5, h6]
            exact le_of_lt (lt_of_lt_of_le hba (h4 ▸ h3))
      · intro k h1 h2
        rw [heq]
        by_cases hk : k = j
        · subst hk
          exact hle
        · exact hmin k h1 (by omega)
    obtain ⟨ht, hd, hm⟩ := ih (exchangeStep ts i j) i (j + 1) (by omega)
      (by rw [hlen₁]; omega) hmin₁
    have hstep : innerLoop ts i j (c + 1) =
        innerLoop (exchangeStep ts i j) i (j + 1) c := rfl
    refine ⟨?_, ?_, ?_⟩
    · rw [hstep, ht, htake₁]
    · rw [hstep]
      exact hd.trans hdrop₁
    · intro k h1 h2
      rw [hstep]
      exact hm k h1 (by rw [hlen₁]; exact h2)

/-- Invariant of the outer loop: with the prefix before `i` sorted and
dominated by the suffix, the loop returns a list sorted by `Order`. -/
theorem outerLoop_spec (c : Nat) :
    ∀ (ts : List Task) (i : Nat), i + c = ts.length →
    (∀ p q, p < q → q < i → ordAt ts p ≤ ordAt ts q) →
    (∀ p q, p < i → i ≤ q → q < ts.length → ordAt ts p ≤ ordAt ts q) →
    ∀ p q, p < q → q < (outerLoop ts i c).length →
      ordAt (outerLoop ts i c) p ≤ ordAt (outerLoop ts i c) q := by
  induction c with
  | zero =>
    intro ts i hlen hsort _hsep p q hpq hq
    have hzero : outerLoop ts i 0 = ts := rfl
    rw [hzero] at hq ⊢
    exact hsort p q hpq (by omega)
  | succ c ih =>
    intro ts i hlen hsort hsep
    have hilen : i < ts.length := by omega
    obtain ⟨htake, hdrop, hminAll⟩ :=
      innerLoop_spec (ts.length - (i + 1)) ts i (i + 1) (by omega) (by omega)
        (by
          intro k h1 h2
          have : k = i := by omega
          subst this
          exact le_rfl)
    set ts₁ := innerLoop ts i (i + 1) (ts.length - (i + 1)) with hts₁
    have hlen₁ : ts₁.length = ts.length :=
      (innerLoop_perm _ ts i (i + 1)).length_eq
    have hpre : ∀ k, k < i → ts₁[k]? = ts[k]? := by
      intro k hk
      rw [← List.getElem?_take_of_lt (l := ts₁) (n := i) hk, htake,
        List.getElem?_take_of_lt hk]
    have htrans : ∀ k, i ≤ k → k < ts.length →
        ∃ q' t, i ≤ q' ∧ q' < ts.length ∧ ts[q']? = some t ∧
          ts₁[k]? = some t := by
      intro k h1 h2
      have hk₁ : k < ts₁.length := by omega
      obtain ⟨t, htk⟩ : ∃ t, ts₁[k]? = some t :=
        ⟨ts₁[k], List.getElem?_eq_getElem hk₁⟩
      have htmem : t ∈ ts₁.drop i := by
        refine List.mem_iff_getElem?.mpr ⟨k - i, ?_⟩
        rw [List.getElem?_drop]
        have : i + (k - i) = k := by omega
        rw [this]
        exact htk
      have htmem' : t ∈ ts.drop i := hdrop.mem_iff.mp htmem
      obtain ⟨m, hm⟩ := List.mem_iff_getElem?.mp htmem'
      rw [List.getElem?_drop] at hm
      exact ⟨i + m, t, by omega, getElem_some_lt hm, hm, htk⟩
    have hordpre : ∀ k, k < i → ordAt ts₁ k = ordAt ts k := by
      intro k hk
      simp [ordAt, hpre k hk]
    have hsort' : ∀ p q, p < q → q < i + 1 → ordAt ts₁ p ≤ ordAt ts₁ q := by
      intro p q hpq hq
      by_cases hqi : q < i
      · rw [hordpre p (by omega), hordpre q hqi]
        exact hsort p q hpq hqi
      · have hq' : q = i := by omega
        subst hq'
        obtain ⟨q', t, hq'1, hq'2, hq'3, hq'4⟩ := htrans q le_rfl hilen
        have : ordAt ts₁ q = t.Order := by simp [ordAt, hq'4]
        rw [hordpre p (by omega), this]
        have : ordAt ts q' = t.Order := by simp [ordAt, hq'3]
        rw [← this]
        exact hsep p q' (by omega) hq'1 hq'2
    have hsep' : ∀ p q, p < i + 1 → i + 1 ≤ q → q < ts₁.length →
        ordAt ts₁ p ≤ ordAt ts₁ q := by
      intro p q hp hq hqlen
      by_cases hpi : p < i
      · obtain ⟨q', t, hq'1, hq'2, hq'3, hq'4⟩ :=
          htrans q (by omega) (by omega)
        have h1 : ordAt ts₁ q = t.Order := by simp [ordAt, hq'4]
        have h2 : ordAt ts q' = t.Order := by simp [ordAt, hq'3]
        rw [hordpre p hpi, h1, ← h2]
        exact hsep p q' hpi hq'1 hq'2
      · have hp' : p = i := by omega
        subst hp'
        exact hminAll q (by omega) (by omega)
    have houter : outerLoop ts i (c + 1) = outerLoop ts₁ (i + 1) c := rfl
    rw [houter]
    exact ih ts₁ (i + 1) (by omega) hsort' hsep'

/-- `sortTasksByOrder` sorts ascending by `Order` (positionally). -/
theorem sortTasksByOrder_sorted (ts : List Task) :
    ∀ p q, p < q → q < (sortTasksByOrder ts).length →
      ordAt (sortTasksByOrder ts) p ≤ ordAt (sortTasksByOrder ts) q :=
  outerLoop_spec ts.length ts 0 (by omega)
    (fun _ q _ hq => absurd hq (Nat.not_lt_zero q))
    (fun p _ hp _ _ => absurd hp (Nat.not_lt_zero p))

/- ## Claim theorems: C8 -/

def c8x : Task := mkTask "x100".toList 2

def c8y : Task := mkTask "x200".toList 2

def c8z : Task := mkTask "x300".toList 1

/-- C8 (counterexample): the exchange sort is not stable.  On input
`[x, y, z]` with `x.Order = y.Order = 2` and `z.Order = 1`, the first
outer pass swaps `x` and `z`, producing `[z, y, x]`: the equal-order tasks
`x`, `y` appear in the opposite of their input order. -/
theorem claim_C8_counterexample :
    sortTasksByOrder [c8x, c8y, c8z] = [c8z, c8y, c8x] ∧
    c8x.Order = c8y.Order ∧ c8x ≠ c8y := by
  decide

/-- C8 (amended): `sortTasksByOrder` permutes its input and sorts it
ascending by `order`, but the tie-break is NOT stable: two tasks with
equal order values may appear in the output in the opposite of their
input (Store iteration) order. -/
theorem claim_C8_amended (ts : List Task) :
    List.Perm (sortTasksByOrder ts) ts ∧
    (∀ p q, p < q → q < (sortTasksByOrder ts).length →
      ordAt (sortTasksByOrder ts) p ≤ ordAt (sortTasksByOrder ts) q) :=
  ⟨sortTasksByOrder_perm ts, sortTasksByOrder_sorted ts⟩

/-- C8 witness: amended claim instantiated on the three-task example. -/
theorem claim_C8_witness :
    List.Perm (sortTasksByOrder [c8x, c8y, c8z]) [c8x, c8y, c8z] ∧
    ordAt (sortTasksByOrder [c8x, c8y, c8z]) 0 ≤
      ordAt (sortTasksByOrder [c8x, c8y, c8z]) 1 :=
  ⟨(claim_C8_amended [c8x, c8y, c8z]).1,
   (claim_C8_amended [c8x, c8y, c8z]).2 0 1 (by decide) (by decide)⟩

/- ## `executeMove` relative placement (cli.go) -/

/-- Loop of `executeMove`'s `before` branch:
`for i, t := range tasks { if t.ID == targetTask.ID && i > 0 { prevTask = tasks[i-1]; break } }`.
The accumulator holds the previous element (`none` at index 0). -/
def prevGo (tid : Str) : Option Task → List Task → Option Task
  | _, [] => none
  | prev, t :: rest =>
    if t.ID = tid ∧ prev.isSome then prev else prevGo tid (some t) rest

/-- `prevTask` lookup of `executeMove` (`before` branch). -/
def findPrevTask (tasks : List Task) (tid : Str) : Option Task :=
  prevGo tid none tasks

/-- Loop of `executeMove`'s `after` branch:
`for i, t := range tasks { if t.ID == targetTask.ID && i < len(tasks)-1 { nextTask = tasks[i+1]; break } }`. -/
def findNextTask : List Task → Str → Option Task
  | [], _ => none
  | [_], _ => none
  | t :: u :: rest, tid =>
    if t.ID = tid then some u else findNextTask (u :: rest) tid

/-- Direction of a relative move. -/
inductive MoveDir where
  | before
  | after
deriving DecidableEq

/-- New order computed by `executeMove` for a relative move (cli.go):
neighbors are looked up in the full sorted task list; a missing neighbor
means target ± 1.0, otherwise the midpoint with the neighbor. -/
def moveRelOrder (s : Store) (dir : MoveDir) (targetTask : Task) : ℚ :=
  match dir with
  | .before =>
    match findPrevTask (sortTasksByOrder s.Tasks) targetTask.ID with
    | some prevTask => (prevTask.Order + targetTask.Order) / 2
    | none => targetTask.Order - 1
  | .after =>
    match findNextTask (sortTasksByOrder s.Tasks) targetTask.ID with
    | some nextTask => (targetTask.Order + nextTask.Order) / 2
    | none => targetTask.Order + 1

theorem prevGo_append (tid : Str) (l₁ l₂ : List Task) (M T : Task)
    (hM : M.ID ≠ tid) (hT : T.ID = tid) (hl₁ : ∀ x ∈ l₁, x.ID ≠ tid) :
    ∀ prev, prevGo tid prev (l₁ ++ M :: T :: l₂) = some M := by
  induction l₁ with
  | nil =>
    intro prev
    show prevGo tid prev (M :: T :: l₂) = some M
    have h1 : ¬ (M.ID = tid ∧ prev.isSome = true) := fun h => hM h.1
    simp only [prevGo, if_neg h1]
    simp [prevGo, hT]
  | cons x l₁ ih =>
    intro prev
    have hx : x.ID ≠ tid := hl₁ x (List.mem_cons_self x l₁)
    have h1 : ¬ (x.ID = tid ∧ prev.isSome = true) := fun h => hx h.1
    show prevGo tid prev (x :: (l₁ ++ M :: T :: l₂)) = some M
    simp only [prevGo, if_neg h1]
    exact ih (fun y hy => hl₁ y (List.mem_cons_of_mem x hy)) (some x)

theorem findNextTask_append (tid : Str) (l₁ l₂ : List Task) (A u : Task)
    (hA : A.ID = tid) (hl₁ : ∀ x ∈ l₁, x.ID ≠ tid) :
    findNextTask (l₁ ++ A :: u :: l₂) tid = some u := by
  induction l₁ with
  | nil =>
    show findNextTask (A :: u :: l₂) tid = some u
    simp [findNextTask, hA]
  | cons x l₁ ih =>
    have hx : x.ID ≠ tid := hl₁ x (List.mem_cons_self x l₁)
    have hne : l₁ ++ A :: u :: l₂ ≠ [] := by simp
    obtain ⟨y, rest, hyr⟩ : ∃ y rest, l₁ ++ A :: u :: l₂ = y :: rest := by
      cases h : l₁ ++ A :: u :: l₂ with
      | nil => exact absurd h hne
      | cons y rest => exact ⟨y, rest, rfl⟩
    show findNextTask (x :: (l₁ ++ A :: u :: l₂)) tid = some u
    rw [hyr]
    show (if x.ID = tid then some y else findNextTask (y :: rest) tid) = some u
    rw [if_neg hx, ← hyr]
    exact ih (fun z hz => hl₁ z (List.mem_cons_of_mem x hz))

/- ## Claim theorems: C3 -/

def c3M : Task := mkTask "ma00".toList 1

def c3T : Task := mkTask "mb00".toList 2

def c3Store : Store := { Version := 1, Tasks := [c3M, c3T], Memos := [] }

/-- C3 (counterexample): in the two-task store `[M(1), T(2)]` the moved
task's own old position IS selected as the neighbor in both directions:
moving `M` before `T` picks `M` itself as the predecessor (midpoint `3/2`
instead of the `T.Order - 1.0 = 1.0` that excluding the mover would give),
and moving `T` after `M` picks `T` itself as the successor (midpoint `3/2`
instead of `M.Order + 1.0 = 2.0`). -/
theorem claim_C3_counterexample :
    (findPrevTask (sortTasksByOrder c3Store.Tasks) c3T.ID = some c3M ∧
      moveRelOrder c3Store .before c3T = 3 / 2 ∧
      moveRelOrder c3Store .before c3T ≠ c3T.Order - 1) ∧
    (findNextTask (sortTasksByOrder c3Store.Tasks) c3M.ID = some c3T ∧
      moveRelOrder c3Store .after c3M = 3 / 2 ∧
      moveRelOrder c3Store .after c3M ≠ c3M.Order + 1) := by
  have h : findPrevTask (sortTasksByOrder c3Store.Tasks) c3T.ID = some c3M := by
    decide
  have h2 : moveRelOrder c3Store .before c3T = (c3M.Order + c3T.Order) / 2 := by
    simp only [moveRelOrder, h]
  have g : findNextTask (sortTasksByOrder c3Store.Tasks) c3M.ID = some c3T := by
    decide
  have g2 : moveRelOrder c3Store .after c3M = (c3M.Order + c3T.Order) / 2 := by
    simp only [moveRelOrder, g]
  refine ⟨⟨h, ?_, ?_⟩, g, ?_, ?_⟩
  · rw [h2]
    norm_num [c3M, c3T, mkTask, NewTask]
  · rw [h2]
    norm_num [c3M, c3T, mkTask, NewTask]
  · rw [g2]
    norm_num [c3M, c3T, mkTask, NewTask]
  · rw [g2]
    norm_num [c3M, c3T, mkTask, NewTask]

/-- C3 (amended): the neighbor used by a relative move is taken from the
full sorted task set *including* the moved task itself, in both
directions: whenever the moved task `M` immediately precedes the target
`T` in sorted order, `M` is selected as the predecessor of a `before`
move, and whenever `M` immediately follows `T`, it is selected as the
successor of an `after` move; either way the assigned order is the
midpoint of `M`'s own old order and `T`'s order. -/
theorem claim_C3_amended (s : Store) (M T : Task) (l₁ l₂ : List Task)
    (hne : M.ID ≠ T.ID) :
    (sortTasksByOrder s.Tasks = l₁ ++ M :: T :: l₂ →
      (∀ x ∈ l₁, x.ID ≠ T.ID) →
      findPrevTask (sortTasksByOrder s.Tasks) T.ID = some M ∧
      moveRelOrder s .before T = (M.Order + T.Order) / 2) ∧
    (sortTasksByOrder s.Tasks = l₁ ++ T :: M :: l₂ →
      (∀ x ∈ l₁, x.ID ≠ T.ID) →
      findNextTask (sortTasksByOrder s.Tasks) T.ID = some M ∧
      moveRelOrder s .after T = (T.Order + M.Order) / 2) := by
  constructor
  · intro hsorted hl₁
    have h : findPrevTask (sortTasksByOrder s.Tasks) T.ID = some M := by
      rw [hsorted]
      exact prevGo_append T.ID l₁ l₂ M T hne rfl hl₁ none
    exact ⟨h, by simp only [moveRelOrder, h]⟩
  · intro hsorted hl₁
    have h : findNextTask (sortTasksByOrder s.Tasks) T.ID = some M := by
      rw [hsorted]
      exact findNextTask_append T.ID l₁ l₂ T M rfl hl₁
    exact ⟨h, by simp only [moveRelOrder, h]⟩

def c3wP : Task := mkTask "mp00".toList 0

def c3wM : Task := mkTask "mq00".toList 1

def c3wT : Task := mkTask "mr00".toList 2

def c3wStore : Store :=
  { Version := 1, Tasks := [c3wP, c3wM, c3wT], Memos := [] }

/-- C3 witness: amended claim on a three-task store, exercising both
halves — the mover as sorted predecessor of a `before` target, and the
mover as sorted successor of an `after` target. -/
theorem claim_C3_witness :
    (findPrevTask (sortTasksByOrder c3wStore.Tasks) c3wT.ID = some c3wM ∧
      moveRelOrder c3wStore .before c3wT = (c3wM.Order + c3wT.Order) / 2) ∧
    (findNextTask (sortTasksByOrder c3wStore.Tasks) c3wM.ID = some c3wT ∧
      moveRelOrder c3wStore .after c3wM = (c3wM.Order + c3wT.Order) / 2) :=
  ⟨(claim_C3_amended c3wStore c3wM c3wT [c3wP] [] (by decide)).1
      (by decide) (by decide),
   (claim_C3_amended c3wStore c3wT c3wM [c3wP] [] (by decide)).2
      (by decide) (by decide)⟩

/- ## Claim theorems: C4 -/

theorem nodup_ids_pos_eq {S : List Task} (hnd : (S.map Task.ID).Nodup)
    {p q : Nat} {t u : Task} (hp : S[p]? = some t) (hq : S[q]? = some u)
    (hid : t.ID = u.ID) : p = q := by
  have hmp : (S.map Task.ID)[p]? = some t.ID := by
    rw [List.getElem?_map, hp]
    rfl
  have hmq : (S.map Task.ID)[q]? = some u.ID := by
    rw [List.getElem?_map, hq]
    rfl
  by_contra hne
  rcases Nat.lt_or_ge p q with h | h
  · have hqlen : q < (S.map Task.ID).length := getElem_some_lt hmq
    have := List.nodup_iff_getElem?_ne_getElem?.mp hnd p q h hqlen
    rw [hmp, hmq, hid] at this
    exact this rfl
  · have hqp : q < p := by omega
    have hplen : p < (S.map Task.ID).length := getElem_some_lt hmp
    have := List.nodup_iff_getElem?_ne_getElem?.mp hnd q p hqp hplen
    rw [hmp, hmq, hid] at this
    exact this rfl

theorem decomp_two {S : List Task} {p : Nat} {a b : Task}
    (hp : S[p]? = some a) (hq : S[p + 1]? = some b) :
    S = S.take p ++ a :: b :: S.drop (p + 2) := by
  have h1 : p < S.length := getElem_some_lt hp
  have h2 : p + 1 < S.length := getElem_some_lt hq
  have ha : S[p] = a := by
    have := List.getElem?_eq_getElem h1
    rw [hp] at this
    exact (Option.some_inj.mp this).symm
  have hb : S[p + 1] = b := by
    have := List.getElem?_eq_getElem h2
    rw [hq] at this
    exact (Option.some_inj.mp this).symm
  conv_lhs => rw [← List.take_append_drop p S]
  rw [List.drop_eq_getElem_cons h1, List.drop_eq_getElem_cons h2, ha, hb]

theorem mem_take_pos {S : List Task} {x : Task} {p : Nat}
    (h : x ∈ S.take p) : ∃ k, k < p ∧ S[k]? = some x := by
  obtain ⟨k, hk⟩ := List.mem_iff_getElem?.mp h
  have hkl : k < (S.take p).length := getElem_some_lt hk
  have hkp : k < p := by
    simp only [List.length_take] at hkl
    omega
  refine ⟨k, hkp, ?_⟩
  rw [← List.getElem?_take_of_lt hkp]
  exact hk

def c4A : Task := mkTask "a400".toList 1

def c4C : Task := mkTask "c400".toList 1

def c4B : Task := mkTask "b400".toList 2

def c4Store : Store := { Version := 1, Tasks := [c4A, c4C, c4B], Memos := [] }

/-- C4 (counterexample): with `A.Order = 1`, `B.Order = 2`, no task
strictly in between, and a third task `C` tied at order `1` sitting right
after `A` in sorted order, moving `C` after `A` takes `C` itself as the
successor and assigns `(1 + 1)/2 = 1`, which is not strictly greater than
`A.Order`. -/
theorem claim_C4_counterexample :
    (c4A.Order < c4B.Order ∧
      ∀ t ∈ c4Store.Tasks, ¬(c4A.Order < t.Order ∧ t.Order < c4B.Order)) ∧
    moveRelOrder c4Store .after c4A = 1 ∧
    ¬ c4A.Order < moveRelOrder c4Store .after c4A := by
  have h : findNextTask (sortTasksByOrder c4Store.Tasks) c4A.ID = some c4C := by
    decide
  have h2 : moveRelOrder c4Store .after c4A = (c4A.Order + c4C.Order) / 2 := by
    simp only [moveRelOrder, h]
  refine ⟨⟨by decide, by decide⟩, ?_, ?_⟩ <;> rw [h2] <;>
    norm_num [c4A, c4C, mkTask, NewTask]

/-- C4 (amended): for tasks `A`, `B` with `A.Order < B.Order` and no task
ordered strictly between them, relative placement "after A" and
"before B" both produce an order strictly between `A.Order` and `B.Order`,
PROVIDED additionally that no other task is tied with `A`'s order or with
`B`'s order (a tied task adjacent in sorted order can otherwise be picked
as the neighbor, collapsing the midpoint onto the shared order value). -/
theorem claim_C4_amended (s : Store) (A B : Task)
    (hA : A ∈ s.Tasks) (hB : B ∈ s.Tasks)
    (hAB : A.Order < B.Order)
    (hbetween : ∀ t ∈ s.Tasks, ¬(A.Order < t.Order ∧ t.Order < B.Order))
    (hids : (s.Tasks.map Task.ID).Nodup)
    (htieA : ∀ t ∈ s.Tasks, t.ID ≠ A.ID → t.Order ≠ A.Order)
    (htieB : ∀ t ∈ s.Tasks, t.ID ≠ B.ID → t.Order ≠ B.Order) :
    (A.Order < moveRelOrder s .after A ∧
      moveRelOrder s .after A < B.Order) ∧
    (A.Order < moveRelOrder s .before B ∧
      moveRelOrder s .before B < B.Order) := by
  set S := sortTasksByOrder s.Tasks with hS
  have hperm : List.Perm S s.Tasks := sortTasksByOrder_perm s.Tasks
  have hsorted : ∀ a b, a < b → b < S.length → ordAt S a ≤ ordAt S b :=
    fun a b h1 h2 => sortTasksByOrder_sorted s.Tasks a b h1 h2
  have hnd : (S.map Task.ID).Nodup := by
    have hmp : List.Perm (S.map Task.ID) (s.Tasks.map Task.ID) :=
      hperm.map Task.ID
    exact hmp.nodup_iff.mpr hids
  obtain ⟨p, hp⟩ := List.mem_iff_getElem?.mp (hperm.mem_iff.mpr hA)
  obtain ⟨q, hq⟩ := List.mem_iff_getElem?.mp (hperm.mem_iff.mpr hB)
  have hqlen : q < S.length := getElem_some_lt hq
  have hplen : p < S.length := getElem_some_lt hp
  have hordp : ordAt S p = A.Order := by simp [ordAt, hp]
  have hordq : ordAt S q = B.Order := by simp [ordAt, hq]
  have hpq : p < q := by
    rcases Nat.lt_trichotomy p q with h | h | h
    · exact h
    · rw [h, hq] at hp
      cases hp
      exact absurd hAB (lt_irrefl _)
    · have := hsorted q p h hplen
      rw [hordp, hordq] at this
      exact absurd hAB (not_lt.mpr this)
  -- any task of S at an index other than p has an ID different from A's,
  -- and similarly for B at q
  have huniqA : ∀ k t, S[k]? = some t → k ≠ p → t.ID ≠ A.ID := by
    intro k t hk hkp hid
    exact hkp (nodup_ids_pos_eq hnd hk hp hid)
  have huniqB : ∀ k t, S[k]? = some t → k ≠ q → t.ID ≠ B.ID := by
    intro k t hk hkq hid
    exact hkq (nodup_ids_pos_eq hnd hk hq hid)
  constructor
  · -- after A
    have hp1len : p + 1 < S.length := by omega
    obtain ⟨succ, hsucc⟩ : ∃ t, S[p + 1]? = some t :=
      ⟨S[p + 1], List.getElem?_eq_getElem hp1len⟩
    have hdec := decomp_two hp hsucc
    have hfind : findNextTask S A.ID = some succ := by
      rw [hdec]
      refine findNextTask_append A.ID (S.take p) (S.drop (p + 2)) A succ rfl ?_
      intro x hx
      obtain ⟨k, hkp, hk⟩ := mem_take_pos hx
      exact huniqA k x hk (by omega)
    have hsmem : succ ∈ s.Tasks :=
      hperm.mem_iff.mp (List.mem_iff_getElem?.mpr ⟨p + 1, hsucc⟩)
    have hord1 : A.Order ≤ succ.Order := by
      have := hsorted p (p + 1) (by omega) hp1len
      rw [hordp] at this
      simpa [ordAt, hsucc] using this
    have hord2 : A.Order < succ.Order := by
      rcases lt_or_eq_of_le hord1 with h | h
      · exact h
      · exact absurd h.symm
          (htieA succ hsmem (huniqA (p + 1) succ hsucc (by omega)))
    have hord3 : succ.Order ≤ B.Order := by
      rcases Nat.lt_or_ge (p + 1) q with h | h
      · have := hsorted (p + 1) q h hqlen
        rw [hordq] at this
        simpa [ordAt, hsucc] using this
      · have : p + 1 = q := by omega
        rw [this, hq] at hsucc
        cases hsucc
        exact le_rfl
    have hord4 : B.Order ≤ succ.Order := by
      have hnb := hbetween succ hsmem
      rcases lt_or_le succ.Order B.Order with h | h
      · exact absurd ⟨hord2, h⟩ hnb
      · exact h
    have hordB : succ.Order = B.Order := le_antisymm hord3 hord4
    have hmove : moveRelOrder s .after A = (A.Order + succ.Order) / 2 := by
      simp only [moveRelOrder, ← hS, hfind]
    rw [hmove, hordB]
    constructor <;> linarith
  · -- before B
    obtain ⟨q', rfl⟩ : ∃ q', q = q' + 1 := ⟨q - 1, by omega⟩
    have hq'len : q' < S.length := by omega
    obtain ⟨prev, hprev⟩ : ∃ t, S[q']? = some t :=
      ⟨_, List.getElem?_eq_getElem hq'len⟩
    have hdec := decomp_two hprev hq
    have hprevne : prev.ID ≠ B.ID := huniqB q' prev hprev (by omega)
    have hfind : findPrevTask S B.ID = some prev := by
      rw [hdec]
      refine prevGo_append B.ID (S.take q') (S.drop (q' + 2)) prev B hprevne
        rfl ?_ none
      intro x hx
      obtain ⟨k, hkp, hk⟩ := mem_take_pos hx
      exact huniqB k x hk (by omega)
    have hpmem : prev ∈ s.Tasks :=
      hperm.mem_iff.mp (List.mem_iff_getElem?.mpr ⟨q', hprev⟩)
    have hord1 : prev.Order ≤ B.Order := by
      have := hsorted q' (q' + 1) (by omega) hqlen
      rw [hordq] at this
      simpa [ordAt, hprev] using this
    have hord2 : prev.Order < B.Order := by
      rcases lt_or_eq_of_le hord1 with h | h
      · exact h
      · exact absurd h (htieB prev hpmem hprevne)
    have hord3 : A.Order ≤ prev.Order := by
      rcases Nat.lt_or_ge p q' with h | h
      · have := hsorted p q' h (by omega)
        rw [hordp] at this
        simpa [ordAt, hprev] using this
      · have : p = q' := by omega
        rw [← this, hp] at hprev
        cases hprev
        exact le_rfl
    have hord4 : prev.Order ≤ A.Order := by
      have hnb := hbetween prev hpmem
      rcases lt_or_le A.Order prev.Order with h | h
      · exact absurd ⟨h, hord2⟩ hnb
      · exact h
    have hordA : prev.Order = A.Order := le_antisymm hord4 hord3
    have hmove : moveRelOrder s .before B = (prev.Order + B.Order) / 2 := by
      simp only [moveRelOrder, ← hS, hfind]
    rw [hmove, hordA]
    constructor <;> linarith

def c4wA : Task := mkTask "aw40".toList 1

def c4wB : Task := mkTask "bw40".toList 2

def c4wD : Task := mkTask "dw40".toList 5

def c4wStore : Store :=
  { Version := 1, Tasks := [c4wB, c4wA, c4wD], Memos := [] }

/-- C4 witness: amended claim on a three-task store with distinct orders. -/
theorem claim_C4_witness :
    (c4wA.Order < moveRelOrder c4wStore .after c4wA ∧
      moveRelOrder c4wStore .after c4wA < c4wB.Order) ∧
    (c4wA.Order < moveRelOrder c4wStore .before c4wB ∧
      moveRelOrder c4wStore .before c4wB < c4wB.Order) :=
  claim_C4_amended c4wStore c4wA c4wB (by decide) (by decide) (by decide)
    (by decide) (by decide) (by decide) (by decide)

/- ## Structured-text ingestion pipeline (`parseMarkdown`, part_007) -/

/-- Split a document at newline characters.  Mirrors the line structure
over which the multiline regular expression of `parseMarkdown` operates:
`n` newlines yield `n + 1` lines, none containing a newline. -/
def splitNl : List Char → List (List Char)
  | [] => [[]]
  | c :: cs =>
    if c = '\n' then [] :: splitNl cs
    else
      match splitNl cs with
      | l :: ls => (c :: l) :: ls
      | [] => [[c]]

/-- Join lines back with newline separators (inverse of `splitNl`). -/
def joinNl : List (List Char) → List Char
  | [] => []
  | [l] => l
  | l :: ls => l ++ '\n' :: joinNl ls

/-- A line matched by the title pattern `^# (.+)$`: a `#`, a space, and at
least one further character. -/
def isHeading (l : List Char) : Bool :=
  match l with
  | '#' :: ' ' :: rest => !rest.isEmpty
  | _ => false

/-- Title-extraction step of `parseMarkdown` (part_007, lines 67–75):
the first line matching `^# (.+)$` supplies the title and ALL matching
lines are replaced by the empty string (`ReplaceAllString`); without a
match the default title is used and the content is untouched. -/
def extractTitle (content defaultTitle : List Char) :
    List Char × List Char :=
  let ls := splitNl content
  match ls.find? isHeading with
  | some l =>
    (l.drop 2, joinNl (ls.map (fun x => if isHeading x then [] else x)))
  | none => (defaultTitle, content)

theorem splitNl_ne_nil (s : List Char) : splitNl s ≠ [] := by
  cases s with
  | nil => simp [splitNl]
  | cons c cs =>
    simp only [splitNl]
    split
    · simp
    · split <;> simp

theorem splitNl_no_newline (s : List Char) :
    ∀ l ∈ splitNl s, '\n' ∉ l := by
  induction s with
  | nil =>
    intro l hl
    simp only [splitNl, List.mem_singleton] at hl
    simp [hl]
  | cons c cs ih =>
    intro l hl
    simp only [splitNl] at hl
    by_cases hc : c = '\n'
    · rw [if_pos hc] at hl
      rcases List.mem_cons.mp hl with rfl | h
      · simp
      · exact ih l h
    · rw [if_neg hc] at hl
      cases hcs : splitNl cs with
      | nil => exact absurd hcs (splitNl_ne_nil cs)
      | cons l₀ ls =>
        rw [hcs] at hl
        rcases List.mem_cons.mp hl with rfl | h
        · intro hmem
          rcases List.mem_cons.mp hmem with h' | h'
          · exact hc h'.symm
          · exact ih l₀ (hcs ▸ List.mem_cons_self l₀ ls) h'
        · exact ih l (hcs ▸ List.mem_cons_of_mem l₀ h)

theorem joinNl_cons (l : List Char) (ls : List (List Char)) (h : ls ≠ []) :
    joinNl (l :: ls) = l ++ '\n' :: joinNl ls := by
  cases ls with
  | nil => exact absurd rfl h
  | cons l₂ ls₂ => rfl

theorem joinNl_splitNl (s : List Char) : joinNl (splitNl s) = s := by
  induction s with
  | nil => rfl
  | cons c cs ih =>
    simp only [splitNl]
    by_cases hc : c = '\n'
    · rw [if_pos hc, joinNl_cons [] (splitNl cs) (splitNl_ne_nil cs), ih, hc]
      rfl
    · rw [if_neg hc]
      cases hcs : splitNl cs with
      | nil => exact absurd hcs (splitNl_ne_nil cs)
      | cons l₀ ls =>
        cases ls with
        | nil =>
          show c :: l₀ = c :: cs
          rw [hcs] at ih
          simpa [joinNl] using ih
        | cons l₁ ls₁ =>
          rw [joinNl_cons (c :: l₀) (l₁ :: ls₁) (by simp)]
          rw [hcs, joinNl_cons l₀ (l₁ :: ls₁) (by simp)] at ih
          show c :: (l₀ ++ '\n' :: joinNl (l₁ :: ls₁)) = c :: cs
          rw [ih]

theorem splitNl_single (s : List Char) (h : '\n' ∉ s) : splitNl s = [s] := by
  induction s with
  | nil => rfl
  | cons c cs ih =>
    have hc : c ≠ '\n' := fun hcn => h (hcn ▸ List.mem_cons_self c cs)
    have hcs : '\n' ∉ cs := fun hmem => h (List.mem_cons_of_mem c hmem)
    simp only [splitNl, if_neg hc, ih hcs]

theorem splitNl_append (x y : List Char) :
    splitNl (x ++ '\n' :: y) = splitNl x ++ splitNl y := by
  induction x with
  | nil => simp [splitNl]
  | cons c cs ih =>
    by_cases hc : c = '\n'
    · show splitNl (c :: (cs ++ '\n' :: y)) = splitNl (c :: cs) ++ splitNl y
      simp only [splitNl, if_pos hc, ih]
      rfl
    · show splitNl (c :: (cs ++ '\n' :: y)) = splitNl (c :: cs) ++ splitNl y
      simp only [splitNl, if_neg hc, ih]
      cases hcs : splitNl cs with
      | nil => exact absurd hcs (splitNl_ne_nil cs)
      | cons l₀ ls => rfl

theorem splitNl_joinNl (ls : List (List Char)) (hne : ls ≠ [])
    (h : ∀ l ∈ ls, '\n' ∉ l) : splitNl (joinNl ls) = ls := by
  induction ls with
  | nil => exact absurd rfl hne
  | cons l ls ih =>
    cases ls with
    | nil =>
      show splitNl (joinNl [l]) = [l]
      exact splitNl_single l (h l (List.mem_cons_self l []))
    | cons l₁ ls₁ =>
      rw [joinNl_cons l (l₁ :: ls₁) (by simp)]
      rw [splitNl_append l (joinNl (l₁ :: ls₁)),
        splitNl_single l (h l (List.mem_cons_self l _)),
        ih (by simp) (fun x hx => h x (List.mem_cons_of_mem l hx))]
      rfl

/-- Prefix test used by the substring scans (`strings.Replace`, regex
matching): does `pat` begin `s`? -/
def leadsWith : List Char → List Char → Bool
  | [], _ => true
  | _ :: _, [] => false
  | p :: ps, c :: cs => if p = c then leadsWith ps cs else false

/-- Leftmost-occurrence splitter: `splitFirst pat s = some (pre, post)`
when `s = pre ++ pat ++ post` with `pre` shortest; `none` when `pat` does
not occur in `s`. -/
def splitFirst (pat : List Char) : List Char → Option (List Char × List Char)
  | [] => if leadsWith pat [] then some ([], []) else none
  | c :: cs =>
    if leadsWith pat (c :: cs) then some ([], (c :: cs).drop pat.length)
    else
      match splitFirst pat cs with
      | some pq => some (c :: pq.1, pq.2)
      | none => none

/- ## Claim theorems: C7 -/

def c7doc : Str := "# A\nx\n# B".toList

/-- C7 (counterexample): a document with two heading lines `# A` and
`# B` loses BOTH after title extraction (`ReplaceAllString` blanks every
match), leaving `"\nx\n"`: the later heading line does not remain. -/
theorem claim_C7_counterexample :
    (extractTitle c7doc "d".toList).1 = "A".toList ∧
    (extractTitle c7doc "d".toList).2 = "\nx\n".toList ∧
    splitFirst "# B".toList (extractTitle c7doc "d".toList).2 = none := by
  decide

/-- C7 (amended): when the document has at least one heading line (first
one `l₀`), `l₀`'s text becomes the title and EVERY heading line —
including later ones — is blanked to an empty line; all non-heading lines
survive unchanged, line for line. -/
theorem claim_C7_amended (content defaultTitle : Str) (l₀ : Str)
    (hfind : (splitNl content).find? isHeading = some l₀) :
    (extractTitle content defaultTitle).1 = l₀.drop 2 ∧
    splitNl (extractTitle content defaultTitle).2 =
      (splitNl content).map (fun l => if isHeading l then [] else l) := by
  have hunfold : extractTitle content defaultTitle =
      (l₀.drop 2, joinNl ((splitNl content).map
        (fun x => if isHeading x then [] else x))) := by
    simp only [extractTitle, hfind]
  rw [hunfold]
  refine ⟨rfl, ?_⟩
  apply splitNl_joinNl
  · simp [splitNl_ne_nil content]
  · intro l hl
    obtain ⟨l', hl', heq⟩ := List.mem_map.mp hl
    by_cases hh : isHeading l'
    · rw [← heq]
      simp [hh]
    · rw [← heq]
      simp only [hh, if_neg]
      exact splitNl_no_newline content l' hl'

/- ## Memo fence scanning (`parseMarkdown`, part_007 lines 77–99) -/

/-- The backtick character. -/
def btChar : Char := Char.ofNat 96

/-- The opening fence line (without its terminating newline). -/
def fenceOpenLine : List Char := [btChar, btChar, btChar, 'm', 'e', 'm', 'o']

/-- The opening-fence pattern of the memo-block regular expression. -/
def memoOpen : List Char := fenceOpenLine ++ ['\n']

/-- The closing fence proper. -/
def closeLine : List Char := [btChar, btChar, btChar]

/-- The closing-fence pattern of the memo-block regular expression. -/
def memoClose : List Char := '\n' :: closeLine

theorem memoOpen_eq_literal : memoOpen = "```memo\n".toList := by decide

theorem memoClose_eq_literal : memoClose = "\n```".toList := by decide

/-- The inline reference marker `[memo](<id>)` substituted for a block. -/
def memoRef (id : List Char) : List Char :=
  "[memo](".toList ++ id ++ [')']

/-- `strings.Replace(s, pat, repl, 1)`: replace the first occurrence. -/
def substFirst (pat repl s : List Char) : List Char :=
  match splitFirst pat s with
  | none => s
  | some pq => pq.1 ++ repl ++ pq.2

theorem leadsWith_append (pat rest : List Char) :
    leadsWith pat (pat ++ rest) = true := by
  induction pat with
  | nil => rfl
  | cons p ps ih => simp [leadsWith, ih]

theorem leadsWith_shape (pat : List Char) :
    ∀ s, leadsWith pat s = true → s = pat ++ s.drop pat.length := by
  induction pat with
  | nil => intro s _; simp
  | cons p ps ih =>
    intro s h
    cases s with
    | nil => simp [leadsWith] at h
    | cons c cs =>
      simp only [leadsWith] at h
      split at h
      · rename_i hpc
        have := ih cs h
        simp only [List.length_cons, List.drop_succ_cons]
        rw [hpc]
        exact congrArg (c :: ·) this
      · cases h

theorem splitFirst_shape (pat : List Char) :
    ∀ s p q, splitFirst pat s = some (p, q) → s = p ++ pat ++ q := by
  intro s
  induction s with
  | nil =>
    intro p q h
    simp only [splitFirst] at h
    split at h
    · rename_i hl
      have hpat : pat = [] := by
        cases pat with
        | nil => rfl
        | cons x xs => simp [leadsWith] at hl
      simp only [Option.some_inj, Prod.mk.injEq] at h
      rw [← h.1, ← h.2, hpat]
      rfl
    · cases h
  | cons c cs ih =>
    intro p q h
    simp only [splitFirst] at h
    split at h
    · rename_i hl
      simp only [Option.some_inj, Prod.mk.injEq] at h
      rw [← h.1, ← h.2]
      simpa using leadsWith_shape pat (c :: cs) hl
    · revert h
      cases hcs : splitFirst pat cs with
      | none => intro h; cases h
      | some pq =>
        intro h
        simp only [Option.some_inj, Prod.mk.injEq] at h
        rw [← h.1, ← h.2]
        have := ih pq.1 pq.2 (by rw [hcs])
        simp only [List.cons_append]
        exact congrArg (c :: ·) this

theorem splitFirst_self (pat rest : List Char) (hne : pat ≠ []) :
    splitFirst pat (pat ++ rest) = some ([], rest) := by
  cases pat with
  | nil => exact absurd rfl hne
  | cons p ps =>
    rw [List.cons_append]
    show (if leadsWith (p :: ps) (p :: (ps ++ rest)) = true
      then some ([], (p :: (ps ++ rest)).drop (p :: ps).length)
      else _) = some ([], rest)
    rw [if_pos (by rw [← List.cons_append]; exact leadsWith_append _ _)]
    rw [show (p :: (ps ++ rest)) = (p :: ps) ++ rest from rfl,
      List.drop_left]

theorem splitFirst_cons_some (pat : List Char) (c : Char) (cs p q : List Char)
    (h : leadsWith pat (c :: cs) = false)
    (h2 : splitFirst pat cs = some (p, q)) :
    splitFirst pat (c :: cs) = some (c :: p, q) := by
  show (if leadsWith pat (c :: cs) = true then _ else _) = _
  rw [if_neg (by simp [h]), h2]

theorem splitFirst_some_length (pat : List Char) (s : List Char)
    (pq : List Char × List Char) (h : splitFirst pat s = some pq)
    (hne : pat ≠ []) : pq.2.length < s.length := by
  have hs := splitFirst_shape pat s pq.1 pq.2 h
  have hl := congrArg List.length hs
  simp only [List.length_append] at hl
  have hp : 0 < pat.length := List.length_pos.mpr hne
  omega

/-- Scanner for three consecutive backticks. -/
def hasTripleBT : List Char → Bool
  | c1 :: c2 :: c3 :: rest =>
    if c1 = btChar ∧ c2 = btChar ∧ c3 = btChar then true
    else hasTripleBT (c2 :: c3 :: rest)
  | _ => false

theorem hasTripleBT_tail (c : Char) (X : List Char)
    (h : hasTripleBT (c :: X) = false) : hasTripleBT X = false := by
  match X with
  | [] => rfl
  | [_] => rfl
  | c2 :: c3 :: rest =>
    simp only [hasTripleBT] at h
    split at h
    · cases h
    · exact h

theorem close_scan (X : List Char) (h3 : hasTripleBT X = false) :
    leadsWith closeLine (X ++ memoClose) = false := by
  match X, h3 with
  | [], _ => decide
  | [a], _ =>
    show (if btChar = a then leadsWith [btChar, btChar] memoClose
      else false) = false
    split
    · decide
    · rfl
  | [a, b], _ =>
    show (if btChar = a then leadsWith [btChar, btChar] (b :: memoClose)
      else false) = false
    split
    · show (if btChar = b then leadsWith [btChar] memoClose
        else false) = false
      split
      · decide
      · rfl
    · rfl
  | a :: b :: d :: rest, h3 =>
    show (if btChar = a then
      leadsWith [btChar, btChar] (b :: d :: (rest ++ memoClose))
      else false) = false
    split
    · rename_i ha
      show (if btChar = b then
        leadsWith [btChar] (d :: (rest ++ memoClose)) else false) = false
      split
      · rename_i hb
        show (if btChar = d then leadsWith [] (rest ++ memoClose)
          else false) = false
        split
        · rename_i hd
          exfalso
          have : hasTripleBT (a :: b :: d :: rest) = true := by
            simp [hasTripleBT, ha.symm, hb.symm, hd.symm]
          rw [this] at h3
          cases h3
        · rfl
      · rfl
    · rfl

/-- With no three consecutive backticks inside the body, the first
occurrence of the closing fence in `body ++ close` is the final one. -/
theorem splitFirst_close (X : List Char) (h : hasTripleBT X = false) :
    splitFirst memoClose (X ++ memoClose) = some (X, []) := by
  induction X with
  | nil =>
    rw [List.nil_append]
    have := splitFirst_self memoClose [] (by decide)
    simpa using this
  | cons c X ih =>
    have hX := hasTripleBT_tail c X h
    have hlw : leadsWith memoClose ((c :: X) ++ memoClose) = false := by
      show (if '\n' = c then leadsWith closeLine (X ++ memoClose)
        else false) = false
      split
      · exact close_scan X hX
      · rfl
    rw [List.cons_append]
    rw [List.cons_append] at hlw
    exact splitFirst_cons_some memoClose c (X ++ memoClose) X [] hlw (ih hX)

/-- The opening fence is first found right after a leading newline. -/
theorem splitFirst_open (rest : List Char) :
    splitFirst memoOpen ('\n' :: (memoOpen ++ rest)) = some (['\n'], rest) := by
  have hlw : leadsWith memoOpen ('\n' :: (memoOpen ++ rest)) = false := by
    show (if btChar = '\n' then _ else false) = false
    split
    · rename_i hb
      exact absurd hb (by decide)
    · rfl
  exact splitFirst_cons_some memoOpen '\n' (memoOpen ++ rest) [] rest hlw
    (splitFirst_self memoOpen rest (by decide))

/-- `FindAllStringSubmatch` for the memo-block pattern: leftmost opening
fence, then the shortest closing fence after it (non-greedy body), then
continue after the match; an unterminated block matches nothing. -/
def findMemoBlocks (s : List Char) : List (List Char) :=
  match h1 : splitFirst memoOpen s with
  | none => []
  | some pq =>
    match h2 : splitFirst memoClose pq.2 with
    | none => []
    | some br => br.1 :: findMemoBlocks br.2
termination_by s.length
decreasing_by
  have l1 : pq.2.length < s.length :=
    splitFirst_some_length memoOpen s pq h1 (by decide)
  have l2 : br.2.length < pq.2.length :=
    splitFirst_some_length memoClose pq.2 br h2 (by decide)
  omega

/-- Replacement loop of `parseMarkdown`: for the `k`-th matched block
body, substitute the first occurrence of the full block text by the
reference marker carrying the `k`-th generated id. -/
def replaceBlocks (uuid : Nat → Str) : Nat → List (List Char) → List Char → List Char
  | _, [], content => content
  | k, b :: bs, content =>
    replaceBlocks uuid (k + 1) bs
      (substFirst (memoOpen ++ b ++ memoClose) (memoRef (uuid k)) content)

/-- `unicode.IsSpace` restricted to the white-space code points Go trims. -/
def isSpaceChar (c : Char) : Bool :=
  (c == ' ') || (c == '\t') || (c == '\n') || (c == Char.ofNat 11) ||
  (c == Char.ofNat 12) || (c == '\r') || (c == Char.ofNat 0x85) ||
  (c == Char.ofNat 0xA0)

/-- `strings.TrimSpace`. -/
def trimSpace (s : List Char) : List Char :=
  ((s.dropWhile isSpaceChar).reverse.dropWhile isSpaceChar).reverse

/-- `parseMarkdown` (part_007): extract the title, extract every memo
block into a fresh memo, replace each block text by its reference marker,
trim, and build the task (order = Append rule) plus the memo list.  The
id generator `uuid` stands for `utils.GenerateUUID`; call `k` draws the
`k`-th id (memos first, then the task). -/
def parseMarkdown (st : Store) (uuid : Nat → Str)
    (content defaultTitle : Str) : Task × List Memo :=
  let tc := extractTitle content defaultTitle
  let bodies := findMemoBlocks tc.2
  let memos := bodies.enum.map (fun kb => NewMemo (uuid kb.1) none kb.2)
  let newContent := replaceBlocks uuid 0 bodies tc.2
  let memoRefs := memos.map Memo.ID
  let task :=
    { NewTask (uuid bodies.length) tc.1 (trimSpace newContent) memoRefs with
      Order := st.GetMaxTaskOrder + 1 }
  (task, memos)

theorem joinNl_append (l₁ l₂ : List (List Char)) (h₁ : l₁ ≠ [])
    (h₂ : l₂ ≠ []) :
    joinNl (l₁ ++ l₂) = joinNl l₁ ++ '\n' :: joinNl l₂ := by
  induction l₁ with
  | nil => exact absurd rfl h₁
  | cons l ls ih =>
    cases ls with
    | nil =>
      show joinNl (l :: l₂) = joinNl [l] ++ '\n' :: joinNl l₂
      rw [joinNl_cons l l₂ h₂]
      rfl
    | cons l' ls' =>
      rw [List.cons_append, joinNl_cons l ((l' :: ls') ++ l₂) (by simp),
        joinNl_cons l (l' :: ls') (by simp), ih (by simp)]
      simp

theorem trimSpace_marker (id : Str) :
    trimSpace ('\n' :: memoRef id) = memoRef id := by
  have hb : List.dropWhile isSpaceChar (memoRef id) = memoRef id := by
    show List.dropWhile isSpaceChar ('[' :: (("memo](".toList ++ id) ++ [')']))
        = memoRef id
    rw [List.dropWhile_cons, if_neg (by decide)]
    rfl
  have hrev : (memoRef id).reverse =
      ')' :: ("[memo](".toList ++ id).reverse := by
    show (("[memo](".toList ++ id) ++ [')']).reverse = _
    rw [List.reverse_append]
    rfl
  show ((List.dropWhile isSpaceChar ('\n' :: memoRef id)).reverse.dropWhile
      isSpaceChar).reverse = memoRef id
  rw [List.dropWhile_cons, if_pos (by decide), hb, hrev,
    List.dropWhile_cons, if_neg (by decide), ← hrev, List.reverse_reverse]

theorem findMemoBlocks_nil : findMemoBlocks [] = [] := by
  unfold findMemoBlocks
  split
  · rfl
  · rename_i pq heq
    rw [show splitFirst memoOpen [] = none from rfl] at heq
    cases heq

theorem findMemoBlocks_step (s p r b q : List Char)
    (h1 : splitFirst memoOpen s = some (p, r))
    (h2 : splitFirst memoClose r = some (b, q)) :
    findMemoBlocks s = b :: findMemoBlocks q := by
  conv_lhs => rw [findMemoBlocks]
  split
  · rename_i heq
    rw [h1] at heq
    cases heq
  · rename_i pq heq
    rw [h1] at heq
    cases heq
    split
    · rename_i heq2
      rw [h2] at heq2
      cases heq2
    · rename_i br heq2
      rw [h2] at heq2
      cases heq2
      rfl

/- ## Claim theorems: C6 -/

/-- The document `# <T>` newline `\x60\x60\x60memo` newline `<X>` newline
`\x60\x60\x60`: one heading followed by one memo-fenced block with body `X`. -/
def memoDoc (T X : Str) : Str :=
  ('#' :: ' ' :: T) ++ '\n' :: (memoOpen ++ (X ++ memoClose))

theorem memoDoc_example :
    memoDoc "T".toList "X".toList = "# T\n```memo\nX\n```".toList := by
  decide

/-- C6 (confirmed): ingesting a document made of a heading `# T` and one
memo-fenced block with body `X` (where `X` contains no heading line and no
triple backtick, i.e. the document really consists of that one block)
yields exactly one memo, untitled, with content exactly `X`, and a task
titled `T` whose `memo_refs` is exactly `[memo.id]` and whose description
is exactly the reference marker `[memo](<id>)` for that memo. -/
theorem claim_C6 (st : Store) (uuid : Nat → Str) (defaultTitle T X : Str)
    (hT : T ≠ []) (hTn : '\n' ∉ T)
    (hX3 : hasTripleBT X = false)
    (hXh : ∀ l ∈ splitNl X, isHeading l = false) :
    ∃ m : Memo,
      (parseMarkdown st uuid (memoDoc T X) defaultTitle).2 = [m] ∧
      m.Content = X ∧ m.Title = none ∧
      (parseMarkdown st uuid (memoDoc T X) defaultTitle).1.Title = T ∧
      (parseMarkdown st uuid (memoDoc T X) defaultTitle).1.MemoRefs = [m.ID] ∧
      (parseMarkdown st uuid (memoDoc T X) defaultTitle).1.Description =
        memoRef m.ID := by
  have hhead_nn : ('\n' : Char) ∉ ('#' :: ' ' :: T) := by
    intro hmem
    rcases List.mem_cons.mp hmem with h | hmem2
    · exact absurd h (by decide)
    · rcases List.mem_cons.mp hmem2 with h | hmem3
      · exact absurd h (by decide)
      · exact hTn hmem3
  have hlines : splitNl (memoDoc T X) =
      ('#' :: ' ' :: T) :: (fenceOpenLine :: (splitNl X ++ [closeLine])) := by
    show splitNl (('#' :: ' ' :: T) ++ '\n' :: (memoOpen ++ (X ++ memoClose)))
      = _
    rw [splitNl_append ('#' :: ' ' :: T), splitNl_single _ hhead_nn]
    have hre : memoOpen ++ (X ++ memoClose) =
        fenceOpenLine ++ '\n' :: (X ++ '\n' :: closeLine) := by
      simp [memoOpen, memoClose, List.append_assoc]
    rw [hre, splitNl_append fenceOpenLine,
      splitNl_single fenceOpenLine (by decide), splitNl_append X,
      splitNl_single closeLine (by decide)]
    rfl
  have hheadT : isHeading ('#' :: ' ' :: T) = true := by
    cases T with
    | nil => exact absurd rfl hT
    | cons a as => simp [isHeading]
  have hfind : (splitNl (memoDoc T X)).find? isHeading =
      some ('#' :: ' ' :: T) := by
    rw [hlines]
    exact List.find?_cons_of_pos _ hheadT
  have hmapX : (splitNl X).map (fun x => if isHeading x then [] else x) =
      splitNl X := by
    conv_rhs => rw [← List.map_id (splitNl X)]
    apply List.map_congr_left
    intro a ha
    simp [hXh a ha]
  have hmapped : (splitNl (memoDoc T X)).map
      (fun x => if isHeading x then [] else x) =
      [] :: (fenceOpenLine :: (splitNl X ++ [closeLine])) := by
    rw [hlines]
    simp only [List.map_cons, List.map_append, hmapX, hheadT, if_pos]
    have h1 : isHeading fenceOpenLine = false := by decide
    have h2 : isHeading closeLine = false := by decide
    simp [h1, h2]
  have hextract : extractTitle (memoDoc T X) defaultTitle =
      (T, '\n' :: (memoOpen ++ (X ++ memoClose))) := by
    simp only [extractTitle, hfind, hmapped]
    refine Prod.ext rfl ?_
    show joinNl ([] :: (fenceOpenLine :: (splitNl X ++ [closeLine]))) = _
    rw [joinNl_cons _ _ (by simp), joinNl_cons fenceOpenLine _ (by simp),
      joinNl_append (splitNl X) [closeLine] (splitNl_ne_nil X) (by simp),
      joinNl_splitNl X]
    show [] ++ '\n' :: (fenceOpenLine ++ '\n' :: (X ++ '\n' :: joinNl [closeLine])) = _
    simp [memoOpen, memoClose, List.append_assoc, joinNl]
  have hblocks : findMemoBlocks (extractTitle (memoDoc T X) defaultTitle).2 =
      [X] := by
    rw [hextract]
    exact (findMemoBlocks_step _ ['\n'] (X ++ memoClose) X [] (splitFirst_open _)
      (splitFirst_close X hX3)).trans (by rw [findMemoBlocks_nil])
  have hsub : substFirst (memoOpen ++ X ++ memoClose) (memoRef (uuid 0))
      (extractTitle (memoDoc T X) defaultTitle).2 =
      '\n' :: memoRef (uuid 0) := by
    rw [hextract]
    have hBIG : memoOpen ++ X ++ memoClose = memoOpen ++ (X ++ memoClose) := by
      simp [List.append_assoc]
    have hlw : leadsWith (memoOpen ++ (X ++ memoClose))
        ('\n' :: (memoOpen ++ (X ++ memoClose))) = false := by
      show (if btChar = '\n' then _ else false) = false
      split
      · rename_i hc
        exact absurd hc (by decide)
      · rfl
    have hself : splitFirst (memoOpen ++ (X ++ memoClose))
        (memoOpen ++ (X ++ memoClose)) = some ([], []) := by
      have := splitFirst_self (memoOpen ++ (X ++ memoClose)) []
        (by simp [memoOpen])
      simpa using this
    show substFirst (memoOpen ++ X ++ memoClose) (memoRef (uuid 0))
      ((T, '\n' :: (memoOpen ++ (X ++ memoClose))).2) = _
    unfold substFirst
    rw [hBIG, splitFirst_cons_some _ '\n' _ [] [] hlw hself]
    simp
  refine ⟨NewMemo (uuid 0) none X, ?_, rfl, rfl, ?_, ?_, ?_⟩
  · show (parseMarkdown st uuid (memoDoc T X) defaultTitle).2 = _
    simp only [parseMarkdown, hblocks]
    rfl
  · simp only [parseMarkdown, hextract, hblocks]
    rfl
  · simp only [parseMarkdown, hblocks]
    rfl
  · simp only [parseMarkdown, hblocks]
    show trimSpace (replaceBlocks uuid 0 [X]
      (extractTitle (memoDoc T X) defaultTitle).2) = _
    show trimSpace (substFirst (memoOpen ++ X ++ memoClose) (memoRef (uuid 0))
      (extractTitle (memoDoc T X) defaultTitle).2) = _
    rw [hsub]
    exact trimSpace_marker (uuid 0)

def c6St : Store := { Version := 1, Tasks := [], Memos := [] }

def c6uuid : Nat → Str := fun n => 'u' :: (Nat.toDigits 10 n).map id

/-- C6 witness: concrete ingestion of `# Title` plus one memo block. -/
theorem claim_C6_witness :
    ∃ m : Memo,
      (parseMarkdown c6St c6uuid
        (memoDoc "Title".toList "X body".toList) "d".toList).2 = [m] ∧
      m.Content = "X body".toList ∧ m.Title = none ∧
      (parseMarkdown c6St c6uuid
        (memoDoc "Title".toList "X body".toList) "d".toList).1.Title =
        "Title".toList ∧
      (parseMarkdown c6St c6uuid
        (memoDoc "Title".toList "X body".toList) "d".toList).1.MemoRefs =
        [m.ID] ∧
      (parseMarkdown c6St c6uuid
        (memoDoc "Title".toList "X body".toList) "d".toList).1.Description =
        memoRef m.ID :=
  claim_C6 c6St c6uuid "d".toList "Title".toList "X body".toList
    (by decide) (by decide) (by decide) (by decide)

/-- C7 witness: amended claim applied to the two-heading document. -/
theorem claim_C7_witness :
    (extractTitle c7doc "d".toList).1 = ("# A".toList).drop 2 ∧
    splitNl (extractTitle c7doc "d".toList).2 =
      (splitNl c7doc).map (fun l => if isHeading l then [] else l) :=
  claim_C7_amended c7doc "d".toList "# A".toList (by decide)

end Tamo
